import Mathlib

/-!
Shallow embedding of the backend code generator in src/src/compiler.cpp
(register and stack-slot allocation, event compilation), together with
theorems about its documented behaviour.  Machine integers are modelled as
Nat or Int; bitmasks as Nat with bitwise operators; fallible or aborting
code returns Option or Except.  Source line numbers refer to compiler.cpp.
-/

namespace Avian

/-- Frame index wildcard: any frame slot is acceptable (compiler.cpp:24). -/
def AnyFrameIndex : Int := -2

/-- Frame index meaning no frame slot is acceptable (compiler.cpp:25). -/
def NoFrameIndex : Int := -1

/-- Word size in bytes.  The source inherits BytesPerWord from the platform
headers (absent from src/); it is fixed at 4 here, and no theorem below
depends on the particular value. -/
def BytesPerWord : Nat := 4

/-- Operand type tags, from the assembler header that is not part of src/.
compiler.cpp only uses them symbolically as bit positions inside type
masks, so the particular values are immaterial; they are assigned in
declaration order here. -/
def ConstantOperand : Nat := 0

/-- Operand type tag for address operands. -/
def AddressOperand : Nat := 1

/-- Operand type tag for register operands. -/
def RegisterOperand : Nat := 2

/-- Operand type tag for memory operands. -/
def MemoryOperand : Nat := 3

/-- Rounded-up division, the ceiling helper from the missing common.h
header; compiler.cpp uses it to convert byte sizes to word counts. -/
def ceiling (n d : Nat) : Nat := (n + d - 1) / d

/-- Intersection of two frame-index constraints (compiler.cpp:226). -/
def intersectFrameIndexes (a b : Int) : Int :=
  if a = NoFrameIndex ∨ b = NoFrameIndex then NoFrameIndex
  else if a = AnyFrameIndex then b
  else if b = AnyFrameIndex then a
  else if a = b then a
  else NoFrameIndex

/-- Constraint triple threaded through the Read.intersect virtual calls:
a type mask, a register mask and a frame index. -/
structure Constraint where
  typeMask : Nat
  registerMask : Nat
  frameIndex : Int
deriving DecidableEq

/-- Data of a SingleRead (compiler.cpp:1304): a fixed constraint set. -/
structure SingleRead where
  size : Nat
  typeMask : Nat
  registerMask : Nat
  frameIndex : Int
deriving DecidableEq

/-- SingleRead.intersect (compiler.cpp:1320): bitwise-ands the type and
register masks into the accumulator and combines the frame indexes with
intersectFrameIndexes. -/
def SingleRead.intersect (r : SingleRead) (k : Constraint) : Constraint :=
  { typeMask := k.typeMask &&& r.typeMask
    registerMask := k.registerMask &&& r.registerMask
    frameIndex := intersectFrameIndexes k.frameIndex r.frameIndex }

/-- Outcome of a comparison recorded in the context (compiler.cpp:59). -/
inductive ConstantCompare
  | CompareNone
  | CompareLess
  | CompareGreater
  | CompareEqual
deriving DecidableEq

/-- Unary operations, restricted to the subset that BranchEvent receives
(the full enum lives in the assembler header outside src/; appendBranch is
only invoked with Jump and the six conditional jump kinds). -/
inductive UnaryOperation
  | Jump
  | JumpIfLess
  | JumpIfGreater
  | JumpIfLessOrEqual
  | JumpIfGreaterOrEqual
  | JumpIfEqual
  | JumpIfNotEqual
deriving DecidableEq

/-- Effect of CompareEvent.compile (compiler.cpp:2441) on the context:
given the resolved constant values of the two operands when each operand
holds a constant site, it returns the recorded constant-compare outcome
and whether a Compare machine operation is emitted.  The int64 difference
is modelled on unbounded integers. -/
def CompareEvent.compileCC (first second : Option Int) : ConstantCompare × Bool :=
  match first, second with
  | some a, some b =>
    (if a - b < 0 then .CompareLess
     else if 0 < a - b then .CompareGreater
     else .CompareEqual,
     false)
  | _, _ => (.CompareNone, true)

/-- Effect of BranchEvent.compile (compiler.cpp:2817): the unary operation
actually applied to the assembler, none when the branch is elided. -/
def BranchEvent.compileOp (cc : ConstantCompare) (type : UnaryOperation) :
    Option UnaryOperation :=
  if type = .Jump then some .Jump
  else
    match cc with
    | .CompareLess =>
      match type with
      | .JumpIfLess | .JumpIfLessOrEqual | .JumpIfNotEqual => some .Jump
      | _ => none
    | .CompareGreater =>
      match type with
      | .JumpIfGreater | .JumpIfGreaterOrEqual | .JumpIfNotEqual => some .Jump
      | _ => none
    | .CompareEqual =>
      match type with
      | .JumpIfEqual | .JumpIfLessOrEqual | .JumpIfGreaterOrEqual => some .Jump
      | _ => none
    | .CompareNone => some type

/-- Truth of a branch condition for comparison operands a and b; the
semantic reference point for the folding theorems. -/
def branchTaken (a b : Int) : UnaryOperation → Bool
  | .Jump => true
  | .JumpIfLess => decide (a < b)
  | .JumpIfGreater => decide (b < a)
  | .JumpIfLessOrEqual => decide (a ≤ b)
  | .JumpIfGreaterOrEqual => decide (b ≤ a)
  | .JumpIfEqual => decide (a = b)
  | .JumpIfNotEqual => decide (a ≠ b)

/-- Event kinds as they affect the constant-compare context field.  In
compiler.cpp the only writes to c.constantCompare are at lines 2450-2457,
inside CompareEvent.compile; the compile method of every other event
leaves the field untouched. -/
inductive EventKind
  | compareEv (first second : Option Int)
  | branchEv (type : UnaryOperation)
  | otherEv
deriving DecidableEq

/-- Whether an event kind is a Compare event. -/
def isCompareEvent : EventKind → Bool
  | .compareEv _ _ => true
  | _ => false

/-- Effect of compiling one event on the constant-compare field. -/
def ccStep (cc : ConstantCompare) : EventKind → ConstantCompare
  | .compareEv f s => (CompareEvent.compileCC f s).1
  | .branchEv _ => cc
  | .otherEv => cc

/-- Constant-compare field after compiling a sequence of events in order. -/
def ccRun (cc : ConstantCompare) : List EventKind → ConstantCompare
  | [] => cc
  | e :: rest => ccRun (ccStep cc e) rest

/-- Generic resolved promise as seen through the Promise interface:
whether it is resolved and the value it reports. -/
structure GPromise where
  isResolved : Bool
  val : Int
deriving DecidableEq

/-- Byte count padded up to word alignment: pad from the missing common.h
header, used by PoolPromise.value. -/
def pad (n : Nat) : Nat := ceiling n BytesPerWord * BytesPerWord

/-- PoolPromise.resolved (compiler.cpp:346): true exactly when the machine
code base pointer (none when null) is non-null. -/
def PoolPromise.resolvedB (machineCode : Option Int) : Bool :=
  machineCode.isSome

/-- PoolPromise.value (compiler.cpp:337): the address of constant-pool
entry key past the padded machine code, or a fatal abort (error) when the
promise is unresolved. -/
def PoolPromise.value (machineCode : Option Int) (machineCodeSize key : Nat) :
    Except Unit Int :=
  if PoolPromise.resolvedB machineCode then
    .ok (machineCode.getD 0 + pad machineCodeSize + key * BytesPerWord)
  else .error ()

/-- CodePromise.resolved (compiler.cpp:372): requires the machine code
base to be non-null, the offset promise to be present (the list
constructor at line 356 leaves it null) and that offset to be resolved. -/
def CodePromise.resolvedB (machineCode : Option Int) (offset : Option GPromise) :
    Bool :=
  machineCode.isSome &&
    (match offset with
     | some o => o.isResolved
     | none => false)

/-- CodePromise.value (compiler.cpp:364): machine code base plus the
offset promise value, or a fatal abort (error) when unresolved. -/
def CodePromise.value (machineCode : Option Int) (offset : Option GPromise) :
    Except Unit Int :=
  if CodePromise.resolvedB machineCode offset then
    .ok (machineCode.getD 0 + (offset.getD ⟨false, 0⟩).val)
  else .error ()

/-- IpPromise.resolved (compiler.cpp:403): true exactly when the machine
code base pointer is non-null. -/
def IpPromise.resolvedB (machineCode : Option Int) : Bool :=
  machineCode.isSome

/-- IpPromise.value (compiler.cpp:394): machine code base plus the machine
offset of the logical instruction (machineOffset modelled as a function of
the logical ip), or a fatal abort (error) when unresolved. -/
def IpPromise.value (machineCode : Option Int) (machineOffset : Nat → Int)
    (logicalIp : Nat) : Except Unit Int :=
  if IpPromise.resolvedB machineCode then
    .ok (machineCode.getD 0 + machineOffset logicalIp)
  else .error ()

/-- Site list of a value, as site identifiers (Value.sites, compiler.cpp:236). -/
structure RValue where
  sites : List Nat
deriving DecidableEq

/-- Per-register resource state (compiler.cpp:168).  The value field holds
the site list of the owning value (none when no owner); site is the
identifier of the RegisterSite backing this register. -/
structure Register where
  number : Nat
  size : Nat
  refCount : Nat
  freezeCount : Nat
  reserved : Bool
  value : Option RValue
  site : Nat
deriving DecidableEq

/-- Placeholder register used only to give list indexing a default; the
embedded loops never read it out of range, mirroring the source loops that
stay within the register table. -/
def dummyRegister : Register :=
  { number := 0, size := 0, refCount := 0, freezeCount := 0,
    reserved := false, value := none, site := 0 }

/-- used (compiler.cpp:1744): the register has an owning value and the
backing site is in that value site list (findSite scans only the list of
the value itself). -/
def used (r : Register) : Bool :=
  match r.value with
  | some v => v.sites.contains r.site
  | none => false

/-- Whether a site list holds exactly one site: sites.next == 0 on the
head of a non-empty list. -/
def sitesSingleton : List Nat → Bool
  | [_] => true
  | _ => false

/-- usedExclusively (compiler.cpp:1751): used and the owning value has a
single site. -/
def usedExclusively (r : Register) : Bool :=
  used r &&
    (match r.value with
     | some v => sitesSingleton v.sites
     | none => false)

/-- registerCost (compiler.cpp:1757).  A reserved or frozen register costs
6 outright; otherwise the cost is 1 for being used, plus 2 more when used
exclusively, plus 2 when reference-counted as a memory-operand base or
index. -/
def registerCost (r : Register) : Nat :=
  if r.reserved ∨ r.freezeCount ≠ 0 then 6
  else
    (if used r then 1 + (if usedExclusively r then 2 else 0) else 0)
    + (if r.refCount ≠ 0 then 2 else 0)

/-- Cost formula exactly as the specification words it: an unconditional
sum of four independent terms.  Kept separate from registerCost so that
the two can be compared. -/
def specRegisterCost (r : Register) : Nat :=
  (if r.reserved ∨ r.freezeCount ≠ 0 then 6 else 0)
  + (if used r then 1 else 0)
  + (if usedExclusively r then 2 else 0)
  + (if r.refCount ≠ 0 then 2 else 0)

/-- Loop body of pickRegister (compiler.cpp:1780), iterating register
numbers downward from i-1 to 0 while tracking the best candidate and its
cost (initially none at cost 5).  A mask equal to the single bit of the
current register returns that register at once. -/
def pickRegisterGo (regs : List Register) (mask : Nat) :
    Nat → Option Register → Nat → Option Register
  | 0, best, _ => best
  | i + 1, best, cost =>
    if mask.testBit i then
      if mask = 2 ^ i then some (regs.getD i dummyRegister)
      else
        let myCost := registerCost (regs.getD i dummyRegister)
        if myCost < cost then
          pickRegisterGo regs mask i (some (regs.getD i dummyRegister)) myCost
        else pickRegisterGo regs mask i best cost
    else pickRegisterGo regs mask i best cost

/-- pickRegister (compiler.cpp:1780); none models the fatal expect failure
when no candidate register with cost below 5 exists. -/
def pickRegister (regs : List Register) (mask : Nat) : Option Register :=
  pickRegisterGo regs mask regs.length none 5

/-- Register and availability slice of the Context (compiler.cpp:261). -/
structure RegCtx where
  registers : List Register
  availableRegisterCount : Nat
deriving DecidableEq

/-- Register table built by the Context constructor loop
(compiler.cpp:294): register i carries the architecture reserved flag and
starts unfrozen, unowned and unreferenced. -/
def mkRegs : Nat → List Bool → List Register
  | _, [] => []
  | i, res :: rest =>
    { number := i, size := 0, refCount := 0, freezeCount := 0,
      reserved := res, value := none, site := 0 } :: mkRegs (i + 1) rest

/-- Context constructor effect on the register slice (compiler.cpp:294):
availableRegisterCount starts at the register count and is decremented
once per reserved register. -/
def mkRegCtx (reservedFlags : List Bool) : RegCtx :=
  { registers := mkRegs 0 reservedFlags
    availableRegisterCount :=
      reservedFlags.length - reservedFlags.countP (fun b => b) }

/-- Replace the register at a position with a modified copy. -/
def modifyReg : List Register → Nat → (Register → Register) → List Register
  | [], _, _ => []
  | r :: rest, 0, f => f r :: rest
  | r :: rest, n + 1, f => r :: modifyReg rest n f

/-- freeze (compiler.cpp:895): increment the freeze count of one register
and decrement the available-register count. -/
def freeze (c : RegCtx) (i : Nat) : RegCtx :=
  { registers := modifyReg c.registers i (fun r => { r with freezeCount := r.freezeCount + 1 })
    availableRegisterCount := c.availableRegisterCount - 1 }

/-- thaw (compiler.cpp:908): decrement the freeze count of one register
and increment the available-register count. -/
def thaw (c : RegCtx) (i : Nat) : RegCtx :=
  { registers := modifyReg c.registers i (fun r => { r with freezeCount := r.freezeCount - 1 })
    availableRegisterCount := c.availableRegisterCount + 1 }

/-- Number of reserved registers in a table. -/
def countReserved (regs : List Register) : Nat :=
  regs.countP (fun r => r.reserved)

/-- Sum of all freeze counts in a table. -/
def sumFreeze (regs : List Register) : Nat :=
  (regs.map (fun r => r.freezeCount)).sum

/-- Availability invariant of the specification: the available-register
count equals the register count minus the reserved registers minus the sum
of all freeze counts. -/
def regInvariant (c : RegCtx) : Prop :=
  (c.availableRegisterCount : Int) =
    (c.registers.length : Int) - countReserved c.registers - sumFreeze c.registers

/-- Frame layout slice of the Context used by frame-index computations. -/
structure FrameParams where
  alignedFrameSize : Nat
  parameterFootprint : Nat
  localFootprint : Nat
deriving DecidableEq

/-- frameIndex (compiler.cpp:568): the canonical frame index of the slot
group starting at a local index for a value of the given word size. -/
def frameIndex (c : FrameParams) (index sizeInWords : Nat) : Int :=
  (c.alignedFrameSize : Int) + c.parameterFootprint - index - sizeInWords

/-- One Local slot (compiler.cpp:74): optional owning value identifier and
its size in bytes. -/
structure LocalSlot where
  value : Option Nat
  sizeInBytes : Nat
deriving DecidableEq

/-- One operand-stack element (compiler.cpp:113): index in words from the
stack bottom, size in words, owning value identifier. -/
structure StackEntry where
  index : Nat
  sizeInWords : Nat
  value : Nat
deriving DecidableEq

/-- Result of trySteal (compiler.cpp:1679) on the stolen site. -/
inductive StealOutcome
  | dropped
  | savedTo (saveIndex : Int)
  | failed
deriving DecidableEq

/-- Scan of the locals array in trySteal (compiler.cpp:1685): the first
local holding the value, as (index, sizeInBytes). -/
def findLocalIndex (vid : Nat) : List LocalSlot → Nat → Option (Nat × Nat)
  | [], _ => none
  | l :: rest, li =>
    if l.value = some vid then some (li, l.sizeInBytes)
    else findLocalIndex vid rest (li + 1)

/-- Scan of the operand stack in trySteal (compiler.cpp:1695): the first
stack element holding the value. -/
def findStackEntry (vid : Nat) : List StackEntry → Option StackEntry
  | [] => none
  | s :: rest => if s.value = vid then some s else findStackEntry vid rest

/-- trySteal (compiler.cpp:1679).  sites is the site list of the value v;
readFrameIndex is the frame-index constraint of the pending read of v (the
source intersects it into a frame index initialised to AnyFrameIndex).
Returns none on the null site list the source would dereference (callers
guarantee at least one site). -/
def trySteal (c : FrameParams) (vid : Nat) (sites : List Nat)
    (readFrameIndex : Int) (stack : List StackEntry)
    (locals : List LocalSlot) : Option StealOutcome :=
  match sites with
  | [] => none
  | [_] =>
    match findLocalIndex vid locals 0 with
    | some (li, szB) =>
      some (.savedTo (frameIndex c li (ceiling szB BytesPerWord)))
    | none =>
      match findStackEntry vid stack with
      | some s =>
        let fi := intersectFrameIndexes AnyFrameIndex readFrameIndex
        if 0 ≤ fi then some (.savedTo fi)
        else some (.savedTo (frameIndex c (s.index + c.localFootprint) s.sizeInWords))
      | none => some .failed
  | _ :: _ :: _ => some .dropped

/-- Constraint data of one read as built by the read helpers
(compiler.cpp:1348, 1372): size in bytes, type mask, 64-bit register mask
and frame index. -/
structure ReadSpec where
  size : Nat
  typeMask : Nat
  registerMask : Nat
  frameIndex : Int
deriving DecidableEq

/-- fixedRegisterRead with no high register (compiler.cpp:1372): a
register-only read whose mask fixes the low register and leaves the high
half unconstrained. -/
def fixedRegisterReadSpec (size low : Nat) : ReadSpec :=
  { size := size
    typeMask := 2 ^ RegisterOperand
    registerMask := 0xFFFFFFFF <<< 32 ||| 1 <<< low
    frameIndex := NoFrameIndex }

/-- Memory-only read at a fixed frame index (read with typeMask
1 << MemoryOperand and register mask 0, compiler.cpp:1348). -/
def memoryReadSpec (size : Nat) (fi : Int) : ReadSpec :=
  { size := size
    typeMask := 2 ^ MemoryOperand
    registerMask := 0
    frameIndex := fi }

/-- Architecture data consulted by CallEvent (argument-passing registers
and return registers); supplied by the assembler outside src/. -/
structure CallArch where
  argumentRegisterCount : Nat
  argumentRegister : Nat → Nat
  returnLow : Nat
  returnHigh : Nat

/-- Argument loop of the CallEvent constructor (compiler.cpp:2143).
Arguments are a list of (value identifier, size in words); index counts
argument words consumed, fi the next stack frame index for memory-passed
arguments, mask the caller-saved mask being carved down.  Returns the
reads in order together with the final fi and mask. -/
def argumentReads (arch : CallArch) :
    List (Nat × Nat) → Nat → Nat → Nat → List (Nat × ReadSpec) × Nat × Nat
  | [], _, fi, mask => ([], fi, mask)
  | (vid, szW) :: rest, index, fi, mask =>
    if index < arch.argumentRegisterCount then
      let r := arch.argumentRegister index
      let res := argumentReads arch rest (index + szW) fi (mask &&& (0xFFFFFFFF ^^^ 1 <<< r))
      ((vid, fixedRegisterReadSpec (szW * BytesPerWord) r) :: res.1, res.2)
    else
      let res := argumentReads arch rest (index + szW) (fi + szW) mask
      ((vid, memoryReadSpec (szW * BytesPerWord) (fi : Int)) :: res.1, res.2)

/-- Read attached to the call address (compiler.cpp:2162): any operand
type, register mask restricted to the registers not used for argument
passing, any frame index. -/
def addressReadSpec (mask : Nat) : ReadSpec :=
  { size := BytesPerWord
    typeMask := 0xFF
    registerMask := mask <<< 32 ||| mask
    frameIndex := AnyFrameIndex }

/-- Loop over the operand stack in the CallEvent constructor
(compiler.cpp:2167).  Entries within the outgoing stack-argument footprint
get memory reads at the successive outgoing frame indexes; entries beyond
it get memory reads at their canonical frame slots.  The popIndex and
padding bookkeeping of the source touches no read and is omitted. -/
def stackSaveReads (c : FrameParams) :
    List StackEntry → Int → Nat → List (Nat × ReadSpec)
  | [], _, _ => []
  | s :: rest, footprint, fi =>
    if 0 < footprint then
      (s.value, memoryReadSpec (s.sizeInWords * BytesPerWord) (fi : Int))
        :: stackSaveReads c rest (footprint - s.sizeInWords) (fi + s.sizeInWords)
    else
      (s.value,
        memoryReadSpec (s.sizeInWords * BytesPerWord)
          (frameIndex c (s.index + c.localFootprint) s.sizeInWords))
        :: stackSaveReads c rest (footprint - s.sizeInWords) (fi + s.sizeInWords)

/-- Loop over the locals array in the CallEvent constructor
(compiler.cpp:2189): every live local gets a memory read at its canonical
frame slot. -/
def localSaveReads (c : FrameParams) :
    List LocalSlot → Nat → List (Nat × ReadSpec)
  | [], _ => []
  | l :: rest, li =>
    match l.value with
    | some vid =>
      (vid, memoryReadSpec l.sizeInBytes
          (frameIndex c li (ceiling l.sizeInBytes BytesPerWord)))
        :: localSaveReads c rest (li + 1)
    | none => localSaveReads c rest (li + 1)

/-- All reads registered by the CallEvent constructor (compiler.cpp:2126),
in registration order: argument reads, the address read, stack save
reads, local save reads. -/
def callEventReads (c : FrameParams) (arch : CallArch) (addressId : Nat)
    (args : List (Nat × Nat)) (stackBefore : List StackEntry)
    (locals : List LocalSlot) (stackArgumentFootprint : Nat) :
    List (Nat × ReadSpec) :=
  let ar := argumentReads arch args 0 0 0xFFFFFFFF
  ar.1 ++ [(addressId, addressReadSpec ar.2.2)]
    ++ stackSaveReads c stackBefore (stackArgumentFootprint : Int) ar.2.1
    ++ localSaveReads c locals 0

/-- Register site given to the call result by CallEvent.compile
(compiler.cpp:2215): when the result size is non-zero and the result is
live, a register site at the return-low register, paired with the
return-high register when the result is wider than a word. -/
def callResultSite (arch : CallArch) (resultSize : Nat) (resultLive : Bool) :
    Option (Nat × Option Nat) :=
  if resultSize ≠ 0 ∧ resultLive = true then
    some (arch.returnLow,
      if BytesPerWord < resultSize then some arch.returnHigh else none)
  else none

/-- Sequence of sites yielded by a SiteIterator (compiler.cpp:655) started
at value orig: the sites of the current value followed by those of each
successive buddy until the ring returns to orig.  Values are identifiers,
buddy pointers the function f, site lists the function sites; findNext
skipping of empty site lists leaves the concatenation unchanged.  Fuel
bounds the traversal. -/
def SiteIterator.collect (sites : Nat → List Nat) (f : Nat → Nat)
    (orig : Nat) : Nat → Nat → List Nat
  | 0, _ => []
  | fuel + 1, cur =>
    sites cur ++
      (if f cur = orig then []
       else SiteIterator.collect sites f orig fuel (f cur))

/-- While loop of removeBuddy (compiler.cpp:2569): starting at p, follow
buddy pointers until reaching the node whose buddy is v; none when fuel
runs out (the source would loop forever). -/
def findPrev (f : Nat → Nat) (v : Nat) : Nat → Nat → Option Nat
  | 0, _ => none
  | fuel + 1, p => if f p = v then some p else findPrev f v fuel (f p)

/-- removeBuddy (compiler.cpp:2554) on the buddy-pointer function: when v
is not alone, point v at itself, walk from its old buddy to the
predecessor of v and point that predecessor at the old buddy. -/
def removeBuddy (f : Nat → Nat) (v : Nat) (fuel : Nat) :
    Option (Nat → Nat) :=
  if f v = v then some f
  else
    let next := f v
    let f1 : Nat → Nat := fun x => if x = v then v else f x
    match findPrev f1 v fuel next with
    | some p => some (fun x => if x = p then next else f1 x)
    | none => none

/-- Chain f orig cur l: starting at cur, the buddy pointers pass through
exactly the nodes of l in order and then reach orig.  A buddy ring rooted
at v is Chain f v v l with l headed by v. -/
inductive Chain (f : Nat → Nat) (orig : Nat) : Nat → List Nat → Prop
  | last : ∀ cur, f cur = orig → Chain f orig cur [cur]
  | cons : ∀ cur rest, f cur ≠ orig → Chain f orig (f cur) rest →
      Chain f orig cur (cur :: rest)

/-- State invariant of the pickRegister loop after the candidates with
number at least lo have been examined: with no best candidate the cost is
still 5 and every examined candidate costs at least 5; with a best
candidate, it is an examined candidate of minimal cost below 5 and of the
highest number among examined candidates of that cost. -/
def IsBestPick (regs : List Register) (mask : Nat) (lo : Nat) :
    Option Register → Nat → Prop
  | none, cost => cost = 5 ∧
      ∀ j, lo ≤ j → j < regs.length → mask.testBit j →
        5 ≤ registerCost (regs.getD j dummyRegister)
  | some r, cost => ∃ j, lo ≤ j ∧ j < regs.length ∧ mask.testBit j ∧
      r = regs.getD j dummyRegister ∧ registerCost r = cost ∧ cost < 5 ∧
      (∀ k, lo ≤ k → k < regs.length → mask.testBit k →
        cost ≤ registerCost (regs.getD k dummyRegister)) ∧
      (∀ k, lo ≤ k → k < regs.length → mask.testBit k →
        registerCost (regs.getD k dummyRegister) = cost → k ≤ j)

/-- Unreserved, unfrozen, unowned register with a given number, used by
concrete witnesses. -/
def freeReg (n : Nat) : Register :=
  { number := n, size := 0, refCount := 0, freezeCount := 0,
    reserved := false, value := none, site := 0 }

/-- Reserved register with a given number, used by concrete witnesses. -/
def reservedReg (n : Nat) : Register :=
  { number := n, size := 0, refCount := 0, freezeCount := 0,
    reserved := true, value := none, site := 0 }

/-- Buddy pointers of the three-element ring 0 → 1 → 2 → 0 used by the
concrete witness. -/
def ringFun : Nat → Nat :=
  fun n => if n = 0 then 1 else if n = 1 then 2 else if n = 2 then 0 else n

/-- Site table used by the buddy-ring witness. -/
def ringSites : Nat → List Nat := fun n => [n + 10]

/-- Total words occupied by the first i call arguments; describes the
index counter of the CallEvent argument loop. -/
def wordsBefore (args : List (Nat × Nat)) (i : Nat) : Nat :=
  ((args.take i).map (fun a => a.2)).sum

/-- Words of the memory-passed arguments in a list when the argument loop
starts at the given word index; describes the frameIndex counter of the
CallEvent argument loop. -/
def memWords (arch : CallArch) : List (Nat × Nat) → Nat → Nat
  | [], _ => 0
  | (_, szW) :: rest, index =>
    if index < arch.argumentRegisterCount then memWords arch rest (index + szW)
    else szW + memWords arch rest (index + szW)

/-- Total words of the first i operand-stack entries (top of stack
first); describes the frameIndex counter of the CallEvent stack loop. -/
def stackWordsBefore (l : List StackEntry) (i : Nat) : Nat :=
  ((l.take i).map (fun s => s.sizeInWords)).sum

/-- Architecture with three argument registers 0, 1, 2 and return
registers 0 and 1, matching the boundary scenario of the specification;
used by the concrete call witness. -/
def arch5 : CallArch := ⟨3, fun k => k, 0, 1⟩

/-- Five one-word call arguments held by values 1 to 5; used by the
concrete call witness. -/
def args5 : List (Nat × Nat) := [(1, 1), (2, 1), (3, 1), (4, 1), (5, 1)]

/-- C3: SingleRead.intersect bitwise-ands the type masks and the register
masks, and combines frame indexes by: NoFrameIndex if either side is
NoFrameIndex; the other side if one side is AnyFrameIndex; the shared
value if the two sides are equal; NoFrameIndex otherwise. -/
theorem singleRead_intersect_law :
    ∀ (r : SingleRead) (k : Constraint),
      (r.intersect k).typeMask = k.typeMask &&& r.typeMask ∧
      (r.intersect k).registerMask = k.registerMask &&& r.registerMask ∧
      ((k.frameIndex = NoFrameIndex ∨ r.frameIndex = NoFrameIndex) →
        (r.intersect k).frameIndex = NoFrameIndex) ∧
      (k.frameIndex = AnyFrameIndex → r.frameIndex ≠ NoFrameIndex →
        (r.intersect k).frameIndex = r.frameIndex) ∧
      (r.frameIndex = AnyFrameIndex → k.frameIndex ≠ NoFrameIndex →
        (r.intersect k).frameIndex = k.frameIndex) ∧
      (k.frameIndex = r.frameIndex →
        (r.intersect k).frameIndex = k.frameIndex) ∧
      (k.frameIndex ≠ NoFrameIndex → r.frameIndex ≠ NoFrameIndex →
        k.frameIndex ≠ AnyFrameIndex → r.frameIndex ≠ AnyFrameIndex →
        k.frameIndex ≠ r.frameIndex →
        (r.intersect k).frameIndex = NoFrameIndex) := by
  intro r k
  refine ⟨rfl, rfl, ?_, ?_, ?_, ?_, ?_⟩ <;>
    simp only [SingleRead.intersect, intersectFrameIndexes, AnyFrameIndex,
      NoFrameIndex] <;>
    intros <;> split_ifs <;> simp_all

/-- Witness for singleRead_intersect_law at a shared concrete frame
index. -/
theorem singleRead_intersect_law_witness :
    (SingleRead.intersect ⟨4, 3, 5, 7⟩ ⟨1, 6, 7⟩).frameIndex = (7 : Int) :=
  (singleRead_intersect_law ⟨4, 3, 5, 7⟩ ⟨1, 6, 7⟩).2.2.2.2.2.1 rfl

/-- C2: when both compare operands hold constants, CompareEvent.compile
emits nothing and records Less, Greater or Equal by the sign of the
difference; a following Branch whose condition is implied by the outcome
compiles to a single unconditional Jump, one excluded by it to nothing,
and when no outcome is recorded the conditional jump itself is emitted;
a compare with a non-constant operand emits the Compare operation and
records no outcome. -/
theorem compare_constant_folding :
    ∀ (a b : Int) (t : UnaryOperation),
      (CompareEvent.compileCC (some a) (some b)).2 = false ∧
      (CompareEvent.compileCC (some a) (some b)).1 =
        (if a - b < 0 then .CompareLess
         else if 0 < a - b then .CompareGreater
         else .CompareEqual) ∧
      BranchEvent.compileOp (CompareEvent.compileCC (some a) (some b)).1 t =
        (if branchTaken a b t then some .Jump else none) ∧
      (CompareEvent.compileCC none (some b)).2 = true ∧
      (CompareEvent.compileCC (some a) none).2 = true ∧
      (CompareEvent.compileCC none none).2 = true ∧
      (CompareEvent.compileCC none (some b)).1 = .CompareNone ∧
      BranchEvent.compileOp .CompareNone t = some t := by
  intro a b t
  refine ⟨rfl, rfl, ?_, rfl, rfl, rfl, rfl, by cases t <;> rfl⟩
  rcases lt_trichotomy a b with h | h | h
  · have h1 : a - b < 0 := by omega
    have h2 : ¬ b < a := by omega
    have h3 : a ≤ b := by omega
    have h4 : ¬ b ≤ a := by omega
    have h5 : a ≠ b := by omega
    cases t <;>
      simp [CompareEvent.compileCC, BranchEvent.compileOp, branchTaken,
        h, h1, h2, h3, h4, h5]
  · subst h
    have h1 : ¬ a - a < 0 := by omega
    have h2 : ¬ 0 < a - a := by omega
    cases t <;>
      simp [CompareEvent.compileCC, BranchEvent.compileOp, branchTaken, h1, h2]
  · have h1 : ¬ a - b < 0 := by omega
    have h2 : 0 < a - b := by omega
    have h3 : ¬ a < b := by omega
    have h4 : b ≤ a := by omega
    have h5 : ¬ a ≤ b := by omega
    have h6 : a ≠ b := by omega
    cases t <;>
      simp [CompareEvent.compileCC, BranchEvent.compileOp, branchTaken,
        h1, h2, h3, h4, h5, h6, h]

/-- C8 counterexample: a Branch is not a Compare event, yet compiling it
after a constant compare of 3 with 3 leaves the recorded outcome
CompareEqual in the context instead of resetting the field to
CompareNone. -/
theorem ccStep_branch_cx :
    isCompareEvent (.branchEv .JumpIfEqual) = false ∧
    ccStep (ccStep .CompareNone (.compareEv (some 3) (some 3)))
      (.branchEv .JumpIfEqual) = .CompareEqual ∧
    ConstantCompare.CompareEqual ≠ .CompareNone := by
  decide

/-- C8 (amended): only Compare events write the constant-compare field;
compiling any non-Compare event leaves it unchanged, so a recorded
outcome persists until the next Compare event overwrites it. -/
theorem ccStep_non_compare :
    ∀ (cc : ConstantCompare) (e : EventKind),
      isCompareEvent e = false → ccStep cc e = cc := by
  intro cc e h
  cases e <;> simp_all [isCompareEvent, ccStep]

/-- Witness for ccStep_non_compare on a concrete non-Compare event. -/
theorem ccStep_non_compare_witness :
    ccStep .CompareLess .otherEv = .CompareLess :=
  ccStep_non_compare .CompareLess .otherEv rfl

/-- C6 counterexample: with a non-null machine code base, a CodePromise
whose offset promise is still null reports unresolved, so resolution is
not equivalent to the machine code base being non-null. -/
theorem codePromise_resolved_cx :
    (some (0 : Int)).isSome = true ∧
    CodePromise.resolvedB (some 0) none = false := by
  decide

/-- C6 (amended): PoolPromise and IpPromise are resolved exactly when the
machine code base is non-null; CodePromise additionally requires its
offset promise to exist and be resolved; and evaluating any of the three
while unresolved aborts (returns the error). -/
theorem promise_resolved_amended :
    ∀ (mc : Option Int) (mcs k : Nat) (off : Option GPromise)
      (moff : Nat → Int) (ip : Nat),
      (PoolPromise.resolvedB mc = true ↔ mc ≠ none) ∧
      (IpPromise.resolvedB mc = true ↔ mc ≠ none) ∧
      (CodePromise.resolvedB mc off = true ↔
        mc ≠ none ∧ ∃ o, off = some o ∧ o.isResolved = true) ∧
      (PoolPromise.value mc mcs k = .error () ↔
        PoolPromise.resolvedB mc = false) ∧
      (CodePromise.value mc off = .error () ↔
        CodePromise.resolvedB mc off = false) ∧
      (IpPromise.value mc moff ip = .error () ↔
        IpPromise.resolvedB mc = false) := by
  intro mc mcs k off moff ip
  refine ⟨?_, ?_, ?_, ?_, ?_, ?_⟩ <;>
    cases mc <;>
    rcases off with _ | ⟨res, v⟩ <;>
    first
      | (cases res <;>
          simp [PoolPromise.resolvedB, IpPromise.resolvedB,
            CodePromise.resolvedB, PoolPromise.value, CodePromise.value,
            IpPromise.value])
      | simp [PoolPromise.resolvedB, IpPromise.resolvedB,
          CodePromise.resolvedB, PoolPromise.value, CodePromise.value,
          IpPromise.value]

theorem mkRegs_length (flags : List Bool) :
    ∀ i, (mkRegs i flags).length = flags.length := by
  induction flags with
  | nil => intro i; rfl
  | cons b rest ih => intro i; simp [mkRegs, ih]

theorem mkRegs_countReserved (flags : List Bool) :
    ∀ i, countReserved (mkRegs i flags) = flags.countP (fun b => b) := by
  induction flags with
  | nil => intro i; rfl
  | cons b rest ih =>
    intro i
    simp only [mkRegs, countReserved, List.countP_cons] at *
    simp [ih i.succ]

theorem mkRegs_sumFreeze (flags : List Bool) :
    ∀ i, sumFreeze (mkRegs i flags) = 0 := by
  induction flags with
  | nil => intro i; rfl
  | cons b rest ih => intro i; simp [mkRegs, sumFreeze] at *; exact ih _

theorem modifyReg_length (regs : List Register) :
    ∀ i f, (modifyReg regs i f).length = regs.length := by
  induction regs with
  | nil => intro i f; rfl
  | cons r rest ih =>
    intro i f
    cases i with
    | zero => rfl
    | succ n => simp [modifyReg, ih]

theorem modifyReg_countReserved (regs : List Register) :
    ∀ i f, (∀ r : Register, (f r).reserved = r.reserved) →
      countReserved (modifyReg regs i f) = countReserved regs := by
  induction regs with
  | nil => intro i f _; rfl
  | cons r rest ih =>
    intro i f hf
    cases i with
    | zero => simp [modifyReg, countReserved, List.countP_cons, hf]
    | succ n =>
      simp only [modifyReg, countReserved, List.countP_cons] at *
      simp [ih n f hf]

theorem modifyReg_sumFreeze_succ (regs : List Register) :
    ∀ i, i < regs.length →
      sumFreeze (modifyReg regs i
          (fun r => { r with freezeCount := r.freezeCount + 1 })) =
        sumFreeze regs + 1 := by
  induction regs with
  | nil => intro i h; simp at h
  | cons r rest ih =>
    intro i h
    cases i with
    | zero => simp [modifyReg, sumFreeze]; omega
    | succ n =>
      simp only [modifyReg, sumFreeze, List.map_cons, List.sum_cons] at *
      have := ih n (by simpa using Nat.lt_of_succ_lt_succ h)
      omega

theorem modifyReg_sumFreeze_pred (regs : List Register) :
    ∀ i, i < regs.length →
      0 < (regs.getD i dummyRegister).freezeCount →
      sumFreeze (modifyReg regs i
          (fun r => { r with freezeCount := r.freezeCount - 1 })) + 1 =
        sumFreeze regs := by
  induction regs with
  | nil => intro i h; simp at h
  | cons r rest ih =>
    intro i h hf
    cases i with
    | zero =>
      simp only [List.getD_cons_zero] at hf
      simp [modifyReg, sumFreeze]
      omega
    | succ n =>
      simp only [List.getD_cons_succ] at hf
      simp only [modifyReg, sumFreeze, List.map_cons, List.sum_cons] at *
      have := ih n (by simpa using Nat.lt_of_succ_lt_succ h) hf
      omega

theorem sumFreeze_le_elem (regs : List Register) :
    ∀ i, i < regs.length →
      (regs.getD i dummyRegister).freezeCount ≤ sumFreeze regs := by
  induction regs with
  | nil => intro i h; simp at h
  | cons r rest ih =>
    intro i h
    cases i with
    | zero => simp [sumFreeze]
    | succ n =>
      simp only [List.getD_cons_succ, sumFreeze, List.map_cons, List.sum_cons]
      have := ih n (by simpa using Nat.lt_of_succ_lt_succ h)
      simp only [sumFreeze] at this
      omega

/-- C7: the Context constructor establishes, and freeze and thaw each
preserve, the equation availableRegisterCount = registerCount − reserved
registers − sum of freeze counts.  The freeze case assumes the assert at
compiler.cpp:898 (an available register remains); the thaw case the
assert at compiler.cpp:911 (the register is frozen). -/
theorem availableRegisterCount_invariant :
    (∀ flags : List Bool, regInvariant (mkRegCtx flags)) ∧
    (∀ (c : RegCtx) (i : Nat), regInvariant c → i < c.registers.length →
      0 < c.availableRegisterCount → regInvariant (freeze c i)) ∧
    (∀ (c : RegCtx) (i : Nat), regInvariant c → i < c.registers.length →
      0 < (c.registers.getD i dummyRegister).freezeCount →
      regInvariant (thaw c i)) := by
  refine ⟨?_, ?_, ?_⟩
  · intro flags
    have hc : flags.countP (fun b => b) ≤ flags.length := List.countP_le_length _
    simp only [regInvariant, mkRegCtx, mkRegs_length, mkRegs_countReserved,
      mkRegs_sumFreeze]
    omega
  · intro c i hinv hi havail
    have hres : countReserved (modifyReg c.registers i
        (fun r => { r with freezeCount := r.freezeCount + 1 })) =
        countReserved c.registers :=
      modifyReg_countReserved c.registers i _ (fun r => rfl)
    have hsum := modifyReg_sumFreeze_succ c.registers i hi
    simp only [regInvariant, freeze, modifyReg_length, hres, hsum] at *
    omega
  · intro c i hinv hi hf
    have hres : countReserved (modifyReg c.registers i
        (fun r => { r with freezeCount := r.freezeCount - 1 })) =
        countReserved c.registers :=
      modifyReg_countReserved c.registers i _ (fun r => rfl)
    have hsum := modifyReg_sumFreeze_pred c.registers i hi hf
    simp only [regInvariant, thaw, modifyReg_length, hres] at *
    omega

/-- Witness for availableRegisterCount_invariant: a two-register context
with one reserved register, freezing then thawing the free register. -/
theorem availableRegisterCount_invariant_witness :
    regInvariant (mkRegCtx [true, false]) ∧
    regInvariant (freeze (mkRegCtx [true, false]) 1) ∧
    regInvariant (thaw (freeze (mkRegCtx [true, false]) 1) 1) := by
  refine ⟨availableRegisterCount_invariant.1 [true, false], ?_, ?_⟩
  · exact availableRegisterCount_invariant.2.1 (mkRegCtx [true, false]) 1
      (availableRegisterCount_invariant.1 [true, false]) (by decide) (by decide)
  · exact availableRegisterCount_invariant.2.2
      (freeze (mkRegCtx [true, false]) 1) 1
      (availableRegisterCount_invariant.2.1 (mkRegCtx [true, false]) 1
        (availableRegisterCount_invariant.1 [true, false]) (by decide)
        (by decide))
      (by decide) (by decide)

/-- C4: stealing a site from a value with at least two sites just drops
it; from a value with a single site, the value is first saved to the
canonical frame slot of the first local holding it, or, for a value on
the operand stack, to the slot named by the pending read frame index when
that is non-negative and to its canonical stack slot otherwise; when the
value is in neither locals nor stack, trySteal reports failure. -/
theorem trySteal_spec :
    ∀ (c : FrameParams) (vid : Nat) (sites : List Nat) (readFi : Int)
      (stack : List StackEntry) (locals : List LocalSlot),
      (2 ≤ sites.length →
        trySteal c vid sites readFi stack locals = some .dropped) ∧
      (∀ s0, sites = [s0] →
        (∀ li szB, findLocalIndex vid locals 0 = some (li, szB) →
          trySteal c vid sites readFi stack locals =
            some (.savedTo (frameIndex c li (ceiling szB BytesPerWord)))) ∧
        (findLocalIndex vid locals 0 = none →
          (∀ se, findStackEntry vid stack = some se →
            (0 ≤ readFi →
              trySteal c vid sites readFi stack locals =
                some (.savedTo readFi)) ∧
            (readFi < 0 →
              trySteal c vid sites readFi stack locals =
                some (.savedTo
                  (frameIndex c (se.index + c.localFootprint) se.sizeInWords)))) ∧
          (findStackEntry vid stack = none →
            trySteal c vid sites readFi stack locals = some .failed))) := by
  intro c vid sites readFi stack locals
  constructor
  · intro h2
    rcases sites with _ | ⟨a, _ | ⟨b, rest⟩⟩
    · simp at h2
    · simp at h2
    · rfl
  · intro s0 hs
    subst hs
    constructor
    · intro li szB hfind
      simp [trySteal, hfind]
    · intro hnone
      constructor
      · intro se hse
        constructor
        · intro hge
          have hfi : intersectFrameIndexes AnyFrameIndex readFi = readFi := by
            simp only [intersectFrameIndexes, AnyFrameIndex, NoFrameIndex]
            split_ifs <;> omega
          simp [trySteal, hnone, hse, hfi, hge]
        · intro hlt
          have hfi : ¬ 0 ≤ intersectFrameIndexes AnyFrameIndex readFi := by
            simp only [intersectFrameIndexes, AnyFrameIndex, NoFrameIndex]
            split_ifs <;> omega
          simp [trySteal, hnone, hse, hfi]
      · intro hsenone
        simp [trySteal, hnone, hsenone]

/-- Witness for trySteal_spec: a single-site value held in local 1 of a
frame with aligned size 4 and one parameter word is saved to the
canonical slot of that local. -/
theorem trySteal_spec_witness :
    trySteal ⟨4, 1, 2⟩ 5 [9] 0 [] [⟨none, 4⟩, ⟨some 5, 4⟩] =
      some (.savedTo (frameIndex ⟨4, 1, 2⟩ 1 (ceiling 4 BytesPerWord))) :=
  ((trySteal_spec ⟨4, 1, 2⟩ 5 [9] 0 [] [⟨none, 4⟩, ⟨some 5, 4⟩]).2 9 rfl).1
    1 4 rfl

theorem isBestPick_skip (regs : List Register) (mask n : Nat)
    (best : Option Register) (cost : Nat)
    (ht : mask.testBit n = false)
    (hb : IsBestPick regs mask (n + 1) best cost) :
    IsBestPick regs mask n best cost := by
  cases best with
  | none =>
    obtain ⟨h5, hall⟩ := hb
    refine ⟨h5, fun j hj hjl hjt => ?_⟩
    rcases Nat.eq_or_lt_of_le hj with h | h
    · rw [← h] at hjt; simp [ht] at hjt
    · exact hall j h hjl hjt
  | some r =>
    obtain ⟨j, hj, hjl, hjt, hr, hcost, hlt, hmin, hties⟩ := hb
    refine ⟨j, by omega, hjl, hjt, hr, hcost, hlt,
      fun k hk hkl hkt => ?_, fun k hk hkl hkt hkc => ?_⟩
    · rcases Nat.eq_or_lt_of_le hk with h | h
      · rw [← h] at hkt; simp [ht] at hkt
      · exact hmin k h hkl hkt
    · rcases Nat.eq_or_lt_of_le hk with h | h
      · rw [← h] at hkt; simp [ht] at hkt
      · exact hties k h hkl hkt hkc

theorem isBestPick_keep (regs : List Register) (mask n : Nat)
    (best : Option Register) (cost : Nat)
    (_ht : mask.testBit n = true)
    (hge : ¬ registerCost (regs.getD n dummyRegister) < cost)
    (hb : IsBestPick regs mask (n + 1) best cost) :
    IsBestPick regs mask n best cost := by
  cases best with
  | none =>
    obtain ⟨h5, hall⟩ := hb
    refine ⟨h5, fun j hj hjl hjt => ?_⟩
    rcases Nat.eq_or_lt_of_le hj with h | h
    · rw [← h]; omega
    · exact hall j h hjl hjt
  | some r =>
    obtain ⟨j, hj, hjl, hjt, hr, hcost, hlt, hmin, hties⟩ := hb
    refine ⟨j, by omega, hjl, hjt, hr, hcost, hlt,
      fun k hk hkl hkt => ?_, fun k hk hkl hkt hkc => ?_⟩
    · rcases Nat.eq_or_lt_of_le hk with h | h
      · rw [← h]; omega
      · exact hmin k h hkl hkt
    · rcases Nat.eq_or_lt_of_le hk with h | h
      · omega
      · exact hties k h hkl hkt hkc

theorem isBestPick_take (regs : List Register) (mask n : Nat)
    (best : Option Register) (cost : Nat)
    (hn : n < regs.length) (ht : mask.testBit n = true)
    (hlt : registerCost (regs.getD n dummyRegister) < cost)
    (hc : cost ≤ 5)
    (hb : IsBestPick regs mask (n + 1) best cost) :
    IsBestPick regs mask n (some (regs.getD n dummyRegister))
      (registerCost (regs.getD n dummyRegister)) := by
  have hc5 : registerCost (regs.getD n dummyRegister) < 5 := by
    cases best with
    | none => obtain ⟨h5, _⟩ := hb; omega
    | some r =>
      obtain ⟨j, _, _, _, _, _, hl5, _, _⟩ := hb
      omega
  refine ⟨n, le_refl n, hn, ht, rfl, rfl, hc5,
    fun k hk hkl hkt => ?_, fun k hk hkl hkt hkc => ?_⟩
  · rcases Nat.eq_or_lt_of_le hk with h | h
    · rw [← h]
    · cases best with
      | none =>
        obtain ⟨h5, hall⟩ := hb
        have := hall k h hkl hkt
        omega
      | some r =>
        obtain ⟨j, _, _, _, _, _, _, hmin, _⟩ := hb
        have := hmin k h hkl hkt
        omega
  · rcases Nat.eq_or_lt_of_le hk with h | h
    · omega
    · cases best with
      | none =>
        obtain ⟨h5, hall⟩ := hb
        have := hall k h hkl hkt
        omega
      | some r =>
        obtain ⟨j, _, _, _, _, _, _, hmin, _⟩ := hb
        have := hmin k h hkl hkt
        omega

theorem isBestPick_start (regs : List Register) (mask : Nat) :
    IsBestPick regs mask regs.length none 5 := by
  exact ⟨rfl, fun j hj hjl _ => by omega⟩

theorem pickRegisterGo_succ (regs : List Register) (mask n : Nat)
    (best : Option Register) (cost : Nat) :
    pickRegisterGo regs mask (n + 1) best cost =
      if mask.testBit n then
        if mask = 2 ^ n then some (regs.getD n dummyRegister)
        else if registerCost (regs.getD n dummyRegister) < cost then
          pickRegisterGo regs mask n (some (regs.getD n dummyRegister))
            (registerCost (regs.getD n dummyRegister))
        else pickRegisterGo regs mask n best cost
      else pickRegisterGo regs mask n best cost := rfl

theorem pickRegisterGo_spec (regs : List Register) (mask : Nat)
    (hns : ∀ i, i < regs.length → mask.testBit i = true → mask ≠ 2 ^ i) :
    ∀ i, i ≤ regs.length → ∀ best cost, cost ≤ 5 →
      IsBestPick regs mask i best cost →
      ∃ cost2, IsBestPick regs mask 0
        (pickRegisterGo regs mask i best cost) cost2 := by
  intro i
  induction i with
  | zero =>
    intro _ best cost _ hb
    exact ⟨cost, hb⟩
  | succ n ih =>
    intro hle best cost hc hb
    have hn : n < regs.length := hle
    by_cases ht : mask.testBit n
    · have hne : mask ≠ 2 ^ n := hns n hn ht
      by_cases hlt : registerCost (regs.getD n dummyRegister) < cost
      · rw [pickRegisterGo_succ, if_pos ht, if_neg hne, if_pos hlt]
        exact ih (by omega) _ _ (by omega)
          (isBestPick_take regs mask n best cost hn ht hlt hc hb)
      · rw [pickRegisterGo_succ, if_pos ht, if_neg hne, if_neg hlt]
        exact ih (by omega) best cost hc
          (isBestPick_keep regs mask n best cost ht hlt hb)
    · rw [pickRegisterGo_succ, if_neg ht]
      exact ih (by omega) best cost hc
        (isBestPick_skip regs mask n best cost (by simpa using ht) hb)

theorem pickRegisterGo_singleton (regs : List Register) (j : Nat) :
    ∀ i best cost, j < i →
      pickRegisterGo regs (2 ^ j) i best cost =
        some (regs.getD j dummyRegister) := by
  intro i
  induction i with
  | zero => intro best cost h; exact absurd h (Nat.not_lt_zero j)
  | succ n ih =>
    intro best cost h
    rcases Nat.eq_or_lt_of_le (Nat.le_of_lt_succ h) with heq | hlt
    · subst heq
      rw [pickRegisterGo_succ, if_pos Nat.testBit_two_pow_self, if_pos rfl]
    · have hne : j ≠ n := by omega
      have ht : ¬ ((2 ^ j).testBit n = true) := by
        rw [Nat.testBit_two_pow_of_ne hne]
        exact Bool.false_ne_true
      rw [pickRegisterGo_succ, if_neg ht]
      exact ih best cost hlt

/-- C10: a singleton candidate mask makes pickRegister return its only
register at once, without consulting the cost; with two or more
candidates, a register of cost 5 or more is never returned, and when
every candidate costs 5 or more the allocation aborts (none, the expect
failure). -/
theorem pickRegister_edge :
    (∀ (regs : List Register) (j : Nat), j < regs.length →
      pickRegister regs (2 ^ j) = some (regs.getD j dummyRegister)) ∧
    (∀ (regs : List Register) (mask a b : Nat) (r : Register),
      a ≠ b → a < regs.length → b < regs.length →
      mask.testBit a = true → mask.testBit b = true →
      pickRegister regs mask = some r → registerCost r < 5) ∧
    (∀ (regs : List Register) (mask a b : Nat),
      a ≠ b → a < regs.length → b < regs.length →
      mask.testBit a = true → mask.testBit b = true →
      (∀ j, j < regs.length → mask.testBit j = true →
        5 ≤ registerCost (regs.getD j dummyRegister)) →
      pickRegister regs mask = none) := by
  have hns : ∀ (mask a b : Nat), a ≠ b → mask.testBit a = true →
      mask.testBit b = true → ∀ i, mask ≠ 2 ^ i := by
    intro mask a b hab hta htb i heq
    subst heq
    by_cases h1 : i = a
    · by_cases h2 : i = b
      · omega
      · rw [Nat.testBit_two_pow_of_ne h2] at htb
        exact Bool.false_ne_true htb
    · rw [Nat.testBit_two_pow_of_ne h1] at hta
      exact Bool.false_ne_true hta
  refine ⟨?_, ?_, ?_⟩
  · intro regs j hj
    exact pickRegisterGo_singleton regs j regs.length none 5 hj
  · intro regs mask a b r hab ha hb hta htb hp
    obtain ⟨cost2, hbp⟩ := pickRegisterGo_spec regs mask
      (fun i _ _ => hns mask a b hab hta htb i) regs.length (le_refl _)
      none 5 (le_refl _) (isBestPick_start regs mask)
    simp only [pickRegister] at hp
    rw [hp] at hbp
    obtain ⟨j, _, _, _, hr, hcost, hlt5, _, _⟩ := hbp
    omega
  · intro regs mask a b hab ha hb hta htb hall
    obtain ⟨cost2, hbp⟩ := pickRegisterGo_spec regs mask
      (fun i _ _ => hns mask a b hab hta htb i) regs.length (le_refl _)
      none 5 (le_refl _) (isBestPick_start regs mask)
    cases hres : pickRegister regs mask with
    | none => rfl
    | some r =>
      simp only [pickRegister] at hres
      rw [hres] at hbp
      obtain ⟨j, _, hjl, hjt, hr, hcost, hlt5, _, _⟩ := hbp
      subst hr
      have := hall j hjl hjt
      omega

/-- Witness for pickRegister_edge: the singleton mask for register 1
returns it directly, the two-candidate mask 3 over two free registers
returns the higher-numbered free register of cost 0, and the mask 3 over
two reserved registers aborts. -/
theorem pickRegister_edge_witness :
    pickRegister [freeReg 0, freeReg 1, reservedReg 2] (2 ^ 1) =
      some ([freeReg 0, freeReg 1, reservedReg 2].getD 1 dummyRegister) ∧
    registerCost (freeReg 1) < 5 ∧
    pickRegister [reservedReg 0, reservedReg 1, freeReg 2] 3 = none := by
  refine ⟨?_, ?_, ?_⟩
  · exact pickRegister_edge.1 [freeReg 0, freeReg 1, reservedReg 2] 1
      (by decide)
  · exact pickRegister_edge.2.1 [freeReg 0, freeReg 1, reservedReg 2] 3 0 1
      (freeReg 1) (by decide) (by decide) (by decide) (by decide) (by decide)
      (by decide)
  · exact pickRegister_edge.2.2 [reservedReg 0, reservedReg 1, freeReg 2] 3 0 1
      (by decide) (by decide) (by decide) (by decide) (by decide) (by decide)

/-- C1 counterexample: a frozen register whose value it holds exclusively
costs 6 under registerCost, while the four-term sum of the claim yields
9, so the claimed cost formula does not match the code. -/
theorem registerCost_cx :
    registerCost
        { number := 0, size := 4, refCount := 0, freezeCount := 1,
          reserved := false, value := some ⟨[3]⟩, site := 3 } = 6 ∧
    specRegisterCost
        { number := 0, size := 4, refCount := 0, freezeCount := 1,
          reserved := false, value := some ⟨[3]⟩, site := 3 } = 9 ∧
    (6 : Nat) ≠ 9 := by
  decide

/-- C1 (amended): a reserved or frozen register costs exactly 6 and the
other terms are ignored; otherwise the cost is the sum
(used? 1 : 0) + (usedExclusively? 2 : 0) + (refCount>0 ? 2 : 0); and on a
mask holding at least two registers, one of which costs at most 4,
pickRegister returns a candidate of minimum cost, breaking ties in favour
of the highest register number. -/
theorem registerCost_pick_spec :
    (∀ r : Register, registerCost r =
      if r.reserved ∨ r.freezeCount ≠ 0 then 6
      else (if used r then 1 else 0) + (if usedExclusively r then 2 else 0)
        + (if r.refCount ≠ 0 then 2 else 0)) ∧
    (∀ (regs : List Register) (mask a b : Nat),
      a ≠ b → a < regs.length → b < regs.length →
      mask.testBit a = true → mask.testBit b = true →
      (∃ k, k < regs.length ∧ mask.testBit k = true ∧
        registerCost (regs.getD k dummyRegister) ≤ 4) →
      ∃ j, j < regs.length ∧ mask.testBit j = true ∧
        pickRegister regs mask = some (regs.getD j dummyRegister) ∧
        (∀ k, k < regs.length → mask.testBit k = true →
          registerCost (regs.getD j dummyRegister) ≤
            registerCost (regs.getD k dummyRegister)) ∧
        (∀ k, k < regs.length → mask.testBit k = true →
          registerCost (regs.getD k dummyRegister) =
            registerCost (regs.getD j dummyRegister) → k ≤ j)) := by
  constructor
  · intro r
    by_cases hr : r.reserved ∨ r.freezeCount ≠ 0
    · simp [registerCost, hr]
    · cases hu : used r
      · have hx : usedExclusively r = false := by
          simp [usedExclusively, hu]
        simp [registerCost, hr, hu, hx]
      · simp only [registerCost, hr, if_false, hu, if_true]
  · intro regs mask a b hab ha hb hta htb hex
    have hns : ∀ i, i < regs.length → mask.testBit i = true → mask ≠ 2 ^ i := by
      intro i _ _ heq
      subst heq
      by_cases h1 : i = a
      · by_cases h2 : i = b
        · omega
        · rw [Nat.testBit_two_pow_of_ne h2] at htb
          exact Bool.false_ne_true htb
      · rw [Nat.testBit_two_pow_of_ne h1] at hta
        exact Bool.false_ne_true hta
    obtain ⟨cost2, hbp⟩ := pickRegisterGo_spec regs mask hns regs.length
      (le_refl _) none 5 (le_refl _) (isBestPick_start regs mask)
    cases hres : pickRegisterGo regs mask regs.length none 5 with
    | none =>
      rw [hres] at hbp
      obtain ⟨_, hall⟩ := hbp
      obtain ⟨k, hkl, hkt, hk4⟩ := hex
      have := hall k (Nat.zero_le k) hkl hkt
      omega
    | some r =>
      rw [hres] at hbp
      obtain ⟨j, _, hjl, hjt, hr, hcost, hlt5, hmin, hties⟩ := hbp
      subst hr
      refine ⟨j, hjl, hjt, ?_, ?_, ?_⟩
      · exact hres
      · intro k hkl hkt
        rw [hcost]
        exact hmin k (Nat.zero_le k) hkl hkt
      · intro k hkl hkt hkc
        exact hties k (Nat.zero_le k) hkl hkt (by omega)

/-- Witness for registerCost_pick_spec: over two free registers and a
reserved one, mask 3 selects the higher-numbered free register, a
minimum-cost candidate. -/
theorem registerCost_pick_spec_witness :
    ∃ j, j < ([freeReg 0, freeReg 1, reservedReg 2] : List Register).length ∧
      (3 : Nat).testBit j = true ∧
      pickRegister [freeReg 0, freeReg 1, reservedReg 2] 3 =
        some ([freeReg 0, freeReg 1, reservedReg 2].getD j dummyRegister) ∧
      (∀ k, k < ([freeReg 0, freeReg 1, reservedReg 2] : List Register).length →
        (3 : Nat).testBit k = true →
        registerCost ([freeReg 0, freeReg 1, reservedReg 2].getD j dummyRegister) ≤
          registerCost ([freeReg 0, freeReg 1, reservedReg 2].getD k dummyRegister)) ∧
      (∀ k, k < ([freeReg 0, freeReg 1, reservedReg 2] : List Register).length →
        (3 : Nat).testBit k = true →
        registerCost ([freeReg 0, freeReg 1, reservedReg 2].getD k dummyRegister) =
          registerCost ([freeReg 0, freeReg 1, reservedReg 2].getD j dummyRegister) →
        k ≤ j) :=
  registerCost_pick_spec.2 [freeReg 0, freeReg 1, reservedReg 2] 3 0 1
    (by decide) (by decide) (by decide) (by decide) (by decide)
    ⟨1, by decide, by decide, by decide⟩

theorem chain_head (f : Nat → Nat) (orig cur : Nat) (l : List Nat)
    (h : Chain f orig cur l) : ∃ t, l = cur :: t := by
  cases h with
  | last _ _ => exact ⟨[], rfl⟩
  | cons _ rest _ _ => exact ⟨rest, rfl⟩

theorem chain_ne_nil (f : Nat → Nat) (orig cur : Nat) (l : List Nat)
    (h : Chain f orig cur l) : l ≠ [] := by
  obtain ⟨t, ht⟩ := chain_head f orig cur l h
  simp [ht]

theorem getLastD_of_ne_nil (l : List Nat) (h : l ≠ []) (d : Nat) :
    l.getLastD d = l.getLast h := by
  rw [List.getLastD_eq_getLast?, List.getLast?_eq_getLast l h]
  rfl

theorem chain_collect (sites : Nat → List Nat) (f : Nat → Nat) (orig : Nat) :
    ∀ (l : List Nat) (cur : Nat), Chain f orig cur l →
      ∀ fuel, l.length ≤ fuel →
        SiteIterator.collect sites f orig fuel cur = (l.map sites).flatten := by
  intro l cur h
  induction h with
  | last cur hf =>
    intro fuel hfuel
    cases fuel with
    | zero => simp at hfuel
    | succ m => simp [SiteIterator.collect, hf]
  | cons cur rest hne hch ih =>
    intro fuel hfuel
    cases fuel with
    | zero => simp at hfuel
    | succ m =>
      have hm : rest.length ≤ m := by
        simp only [List.length_cons] at hfuel
        omega
      simp [SiteIterator.collect, hne, ih m hm]

theorem findPrev_succ (f : Nat → Nat) (v fuel p : Nat) :
    findPrev f v (fuel + 1) p =
      if f p = v then some p else findPrev f v fuel (f p) := rfl

theorem chain_findPrev (f : Nat → Nat) (v : Nat) :
    ∀ (l : List Nat) (cur : Nat), Chain f v cur l →
      ∀ fuel, l.length ≤ fuel →
        findPrev f v fuel cur = some (l.getLastD 0) := by
  intro l cur h
  induction h with
  | last cur hf =>
    intro fuel hfuel
    cases fuel with
    | zero => simp at hfuel
    | succ m => simp [findPrev_succ, hf]
  | cons cur rest hne hch ih =>
    intro fuel hfuel
    cases fuel with
    | zero => simp at hfuel
    | succ m =>
      have hm : rest.length ≤ m := by
        simp only [List.length_cons] at hfuel
        omega
      have hrest : rest ≠ [] := chain_ne_nil f v (f cur) rest hch
      rw [findPrev_succ, if_neg hne, ih m hm, List.getLastD_cons,
        getLastD_of_ne_nil rest hrest 0, getLastD_of_ne_nil rest hrest cur]

theorem chain_next_mem_tail (f : Nat → Nat) (v : Nat) :
    ∀ (l : List Nat) (cur : Nat), Chain f v cur l →
      ∀ x ∈ l, x ≠ l.getLastD 0 → f x ∈ l.tail := by
  intro l cur h
  induction h with
  | last cur hf =>
    intro x hx hne
    simp only [List.mem_singleton] at hx
    subst hx
    exact absurd rfl hne
  | cons cur rest hne hch ih =>
    intro x hx hxl
    have hrest : rest ≠ [] := chain_ne_nil f v (f cur) rest hch
    have hlast : (cur :: rest).getLastD 0 = rest.getLastD 0 := by
      rw [List.getLastD_cons, getLastD_of_ne_nil rest hrest cur,
        getLastD_of_ne_nil rest hrest 0]
    rcases List.mem_cons.mp hx with heq | hmem
    · subst heq
      obtain ⟨t, ht⟩ := chain_head f v (f x) rest hch
      simp [ht]
    · have hxl2 : x ≠ rest.getLastD 0 := by
        rw [hlast] at hxl
        exact hxl
      have hmemtail := ih x hmem hxl2
      exact List.mem_of_mem_tail hmemtail

theorem chain_transfer (f f1 : Nat → Nat) (v : Nat) :
    ∀ (l : List Nat) (cur : Nat), Chain f v cur l →
      (∀ x ∈ l, f1 x = f x) → Chain f1 v cur l := by
  intro l cur h
  induction h with
  | last cur hf =>
    intro hagree
    exact Chain.last cur (by rw [hagree cur (by simp)]; exact hf)
  | cons cur rest hne hch ih =>
    intro hagree
    have hcur : f1 cur = f cur := hagree cur (by simp)
    refine Chain.cons cur rest (by rw [hcur]; exact hne) ?_
    rw [hcur]
    exact ih (fun x hx => hagree x (by simp [hx]))

theorem chain_relink (f f2 : Nat → Nat) (v w : Nat) :
    ∀ (l : List Nat) (cur : Nat), Chain f v cur l → l.Nodup →
      (∀ x ∈ l, x ≠ l.getLastD 0 → f2 x = f x) →
      f2 (l.getLastD 0) = w →
      (∀ x ∈ l, x ≠ l.getLastD 0 → f x ≠ w) →
      Chain f2 w cur l := by
  intro l cur h
  induction h with
  | last cur hf =>
    intro _ _ hlast _
    exact Chain.last cur (by simpa using hlast)
  | cons cur rest hne hch ih =>
    intro hnd hagree hlast hnw
    have hrest : rest ≠ [] := chain_ne_nil f v (f cur) rest hch
    have hl : (cur :: rest).getLastD 0 = rest.getLastD 0 := by
      rw [List.getLastD_cons, getLastD_of_ne_nil rest hrest cur,
        getLastD_of_ne_nil rest hrest 0]
    have hcurne : cur ≠ (cur :: rest).getLastD 0 := by
      rw [hl]
      intro hcontra
      have hmem : rest.getLastD 0 ∈ rest := by
        rw [getLastD_of_ne_nil rest hrest 0]
        exact List.getLast_mem hrest
      exact (List.nodup_cons.mp hnd).1 (hcontra ▸ hmem)
    have hf2cur : f2 cur = f cur := hagree cur (by simp) hcurne
    refine Chain.cons cur rest ?_ ?_
    · rw [hf2cur]
      exact hnw cur (by simp) hcurne
    · rw [hf2cur]
      refine ih (List.nodup_cons.mp hnd).2 ?_ ?_ ?_
      · intro x hx hxl
        refine hagree x (by simp [hx]) ?_
        rw [hl]
        exact hxl
      · rw [← hl]
        exact hlast
      · intro x hx hxl
        refine hnw x (by simp [hx]) ?_
        rw [hl]
        exact hxl

/-- C9: iterating the sites of a value in a buddy ring yields the
concatenation of the site lists of every ring member, and removeBuddy
splices a member out, leaving it self-linked and the remaining members
forming a single ring. -/
theorem buddy_ring_spec :
    (∀ (sites : Nat → List Nat) (f : Nat → Nat) (orig : Nat)
      (l : List Nat) (fuel : Nat), Chain f orig orig l → l.length ≤ fuel →
      SiteIterator.collect sites f orig fuel orig = (l.map sites).flatten) ∧
    (∀ (f : Nat → Nat) (v v1 : Nat) (rest : List Nat),
      Chain f v v (v :: v1 :: rest) → v ∉ v1 :: rest →
      (v1 :: rest).Nodup →
      ∃ f2, removeBuddy f v (v :: v1 :: rest).length = some f2 ∧
        f2 v = v ∧ Chain f2 v1 v1 (v1 :: rest)) := by
  constructor
  · intro sites f orig l fuel hch hfuel
    exact chain_collect sites f orig l orig hch fuel hfuel
  · intro f v v1 rest hring hnmem hnd
    cases hring with
    | cons _ _ hne hch =>
      obtain ⟨t, ht⟩ := chain_head f v (f v) (v1 :: rest) hch
      have hfv : f v = v1 := by
        injection ht with h1 _
        exact h1.symm
      have hagree : ∀ x ∈ v1 :: rest,
          (fun x => if x = v then v else f x) x = f x := by
        intro x hx
        have hxv : x ≠ v := fun hc => hnmem (hc ▸ hx)
        simp [hxv]
      rw [hfv] at hch
      have hch1 : Chain (fun x => if x = v then v else f x) v v1 (v1 :: rest) :=
        chain_transfer f _ v (v1 :: rest) v1 hch hagree
      have hlen : (v1 :: rest).length ≤ (v :: v1 :: rest).length := by simp
      have hfp := chain_findPrev (fun x => if x = v then v else f x) v
        (v1 :: rest) v1 hch1 (v :: v1 :: rest).length hlen
      have hlastmem : (v1 :: rest).getLastD 0 ∈ v1 :: rest := by
        rw [getLastD_of_ne_nil (v1 :: rest) (by simp) 0]
        exact List.getLast_mem (by simp)
      have hlastnev : (v1 :: rest).getLastD 0 ≠ v :=
        fun hc => hnmem (hc ▸ hlastmem)
      refine ⟨fun x => if x = (v1 :: rest).getLastD 0 then f v
          else if x = v then v else f x, ?_, ?_, ?_⟩
      · simp only [removeBuddy, if_neg hne]
        rw [hfv, hfp]
      · simp only [List.getLastD_eq_getLast?] at hlastnev
        simp [Ne.symm hlastnev]
      · refine chain_relink (fun x => if x = v then v else f x) _ v v1
          (v1 :: rest) v1 hch1 hnd ?_ ?_ ?_
        · intro x hx hxl
          exact if_neg hxl
        · rw [if_pos rfl, hfv]
        · intro x hx hxl
          have hmemtail := chain_next_mem_tail
            (fun x => if x = v then v else f x) v (v1 :: rest) v1 hch1 x hx hxl
          simp only [List.tail_cons] at hmemtail
          intro hc
          exact (List.nodup_cons.mp hnd).1 (hc ▸ hmemtail)

theorem wordsBefore_zero (args : List (Nat × Nat)) : wordsBefore args 0 = 0 := rfl

theorem wordsBefore_cons (a : Nat × Nat) (args : List (Nat × Nat)) (i : Nat) :
    wordsBefore (a :: args) (i + 1) = a.2 + wordsBefore args i := by
  simp [wordsBefore, List.take_succ_cons]

theorem wordsBefore_succ (args : List (Nat × Nat)) :
    ∀ i, i < args.length →
      wordsBefore args (i + 1) = wordsBefore args i + (args.getD i (0, 0)).2 := by
  induction args with
  | nil => intro i h; simp at h
  | cons a rest ih =>
    intro i h
    cases i with
    | zero => simp [wordsBefore_cons, wordsBefore_zero]
    | succ j =>
      have hj : j < rest.length := by simpa using Nat.lt_of_succ_lt_succ h
      rw [wordsBefore_cons, wordsBefore_cons, ih j hj, List.getD_cons_succ]
      omega

theorem getD_mem_of_lt {α : Type} :
    ∀ (l : List α) (i : Nat) (d : α), i < l.length → l.getD i d ∈ l := by
  intro l i d h
  rw [List.getD_eq_getElem l d h]
  exact List.getElem_mem h

theorem argumentReads_length (arch : CallArch) :
    ∀ (args : List (Nat × Nat)) (index fi mask : Nat),
      (argumentReads arch args index fi mask).1.length = args.length := by
  intro args
  induction args with
  | nil => intro index fi mask; rfl
  | cons a rest ih =>
    intro index fi mask
    obtain ⟨vid, szW⟩ := a
    by_cases hidx : index < arch.argumentRegisterCount <;>
      simp [argumentReads, hidx, ih]

theorem argumentReads_get (arch : CallArch) :
    ∀ (args : List (Nat × Nat)) (index fi mask i : Nat), i < args.length →
      (argumentReads arch args index fi mask).1.getD i (0, memoryReadSpec 0 0) =
        ((args.getD i (0, 0)).1,
          if index + wordsBefore args i < arch.argumentRegisterCount then
            fixedRegisterReadSpec ((args.getD i (0, 0)).2 * BytesPerWord)
              (arch.argumentRegister (index + wordsBefore args i))
          else
            memoryReadSpec ((args.getD i (0, 0)).2 * BytesPerWord)
              ((fi + memWords arch (args.take i) index : Nat) : Int)) := by
  intro args
  induction args with
  | nil => intro index fi mask i h; simp at h
  | cons a rest ih =>
    intro index fi mask i h
    obtain ⟨vid, szW⟩ := a
    cases i with
    | zero =>
      by_cases hidx : index < arch.argumentRegisterCount
      · simp [argumentReads, hidx, wordsBefore_zero]
      · simp [argumentReads, hidx, wordsBefore_zero, memWords]
    | succ j =>
      have hj : j < rest.length := by simpa using Nat.lt_of_succ_lt_succ h
      by_cases hidx : index < arch.argumentRegisterCount
      · simp only [argumentReads, hidx, if_true, List.getD_cons_succ]
        rw [ih (index + szW) fi (mask &&& (0xFFFFFFFF ^^^ 1 <<< arch.argumentRegister index)) j hj]
        rw [wordsBefore_cons, List.take_succ_cons]
        simp only [memWords, hidx, if_true]
        rw [← Nat.add_assoc]
      · simp only [argumentReads, hidx, if_false, List.getD_cons_succ]
        rw [ih (index + szW) (fi + szW) mask j hj]
        rw [wordsBefore_cons, List.take_succ_cons]
        simp only [memWords, hidx, if_false]
        rw [← Nat.add_assoc, ← Nat.add_assoc]

theorem memWords_take_succ (arch : CallArch) :
    ∀ (args : List (Nat × Nat)) (index i : Nat), i < args.length →
      memWords arch (args.take (i + 1)) index =
        memWords arch (args.take i) index +
          (if index + wordsBefore args i < arch.argumentRegisterCount then 0
           else (args.getD i (0, 0)).2) := by
  intro args
  induction args with
  | nil => intro index i h; simp at h
  | cons a rest ih =>
    intro index i h
    obtain ⟨vid, szW⟩ := a
    cases i with
    | zero =>
      by_cases hidx : index < arch.argumentRegisterCount <;>
        simp [memWords, hidx, wordsBefore_zero]
    | succ j =>
      have hj : j < rest.length := by simpa using Nat.lt_of_succ_lt_succ h
      rw [List.take_succ_cons, List.take_succ_cons]
      by_cases hidx : index < arch.argumentRegisterCount
      · simp only [memWords, hidx, if_true, List.getD_cons_succ,
          wordsBefore_cons]
        rw [ih (index + szW) j hj, ← Nat.add_assoc]
      · simp only [memWords, hidx, if_false, List.getD_cons_succ,
          wordsBefore_cons]
        rw [ih (index + szW) j hj]
        have hcond : index + szW + wordsBefore rest j =
            index + (szW + wordsBefore rest j) := by omega
        rw [hcond]
        generalize (if index + (szW + wordsBefore rest j) <
            arch.argumentRegisterCount then 0
          else (rest.getD j (0, 0)).2) = t
        omega

theorem stackWordsBefore_zero (l : List StackEntry) :
    stackWordsBefore l 0 = 0 := rfl

theorem stackWordsBefore_cons (s : StackEntry) (l : List StackEntry) (i : Nat) :
    stackWordsBefore (s :: l) (i + 1) = s.sizeInWords + stackWordsBefore l i := by
  simp [stackWordsBefore, List.take_succ_cons]

theorem stackSaveReads_get (c : FrameParams) :
    ∀ (l : List StackEntry) (footprint : Int) (fi i : Nat), i < l.length →
      (stackSaveReads c l footprint fi).getD i (0, memoryReadSpec 0 0) =
        ((l.getD i ⟨0, 0, 0⟩).value,
          if 0 < footprint - (stackWordsBefore l i : Int) then
            memoryReadSpec ((l.getD i ⟨0, 0, 0⟩).sizeInWords * BytesPerWord)
              ((fi + stackWordsBefore l i : Nat) : Int)
          else
            memoryReadSpec ((l.getD i ⟨0, 0, 0⟩).sizeInWords * BytesPerWord)
              (frameIndex c ((l.getD i ⟨0, 0, 0⟩).index + c.localFootprint)
                (l.getD i ⟨0, 0, 0⟩).sizeInWords)) := by
  intro l
  induction l with
  | nil => intro footprint fi i h; simp at h
  | cons s rest ih =>
    intro footprint fi i h
    cases i with
    | zero =>
      by_cases hfp : 0 < footprint
      · simp [stackSaveReads, hfp, stackWordsBefore_zero]
      · simp [stackSaveReads, hfp, stackWordsBefore_zero]
    | succ j =>
      have hj : j < rest.length := by simpa using Nat.lt_of_succ_lt_succ h
      by_cases hfp : 0 < footprint
      · simp only [stackSaveReads, hfp, if_true, List.getD_cons_succ,
          stackWordsBefore_cons]
        rw [ih (footprint - s.sizeInWords) (fi + s.sizeInWords) j hj]
        rw [sub_sub]
        push_cast
        rw [add_assoc]
      · simp only [stackSaveReads, hfp, if_false, List.getD_cons_succ,
          stackWordsBefore_cons]
        rw [ih (footprint - s.sizeInWords) (fi + s.sizeInWords) j hj]
        rw [sub_sub]
        push_cast
        rw [add_assoc]

theorem localSaveReads_mem (c : FrameParams) :
    ∀ (locals : List LocalSlot) (li0 li vid szB : Nat),
      li < locals.length →
      locals.getD li ⟨none, 0⟩ = ⟨some vid, szB⟩ →
      (vid, memoryReadSpec szB
          (frameIndex c (li0 + li) (ceiling szB BytesPerWord)))
        ∈ localSaveReads c locals li0 := by
  intro locals
  induction locals with
  | nil => intro li0 li vid szB h; simp at h
  | cons l rest ih =>
    intro li0 li vid szB h hget
    cases li with
    | zero =>
      rw [List.getD_cons_zero] at hget
      rw [hget]
      simp [localSaveReads]
    | succ j =>
      have hj : j < rest.length := by simpa using Nat.lt_of_succ_lt_succ h
      rw [List.getD_cons_succ] at hget
      have hmem := ih (li0 + 1) j vid szB hj hget
      have harith : li0 + (j + 1) = li0 + 1 + j := by omega
      rw [harith]
      cases hval : l.value with
      | some w =>
        simp only [localSaveReads, hval]
        exact List.mem_cons_of_mem _ hmem
      | none =>
        simp only [localSaveReads, hval]
        exact hmem

/-- Witness for buddy_ring_spec on the concrete ring 0 → 1 → 2 → 0:
iteration concatenates the three site lists and removal of 0 leaves the
ring 1 → 2 → 1. -/
theorem buddy_ring_spec_witness :
    SiteIterator.collect ringSites ringFun 0 3 0 =
      (([0, 1, 2] : List Nat).map ringSites).flatten ∧
    ∃ f2, removeBuddy ringFun 0 3 = some f2 ∧ f2 0 = 0 ∧
      Chain f2 1 1 [1, 2] := by
  have hchain : Chain ringFun 0 0 [0, 1, 2] := by
    refine Chain.cons 0 [1, 2] (by decide) ?_
    show Chain ringFun 0 1 [1, 2]
    refine Chain.cons 1 [2] (by decide) ?_
    show Chain ringFun 0 2 [2]
    exact Chain.last 2 (by decide)
  constructor
  · exact buddy_ring_spec.1 ringSites ringFun 0 [0, 1, 2] 3 hchain (by decide)
  · exact buddy_ring_spec.2 ringFun 0 1 [2] hchain (by decide) (by decide)

/-- C5 counterexample: in a stack call whose outgoing stack-argument
footprint covers the single operand-stack value, that value receives its
memory read at the outgoing frame index 0, while its canonical save slot
is 3, so not every stack value is read at its canonical slot. -/
theorem callEventReads_stack_cx :
    callEventReads ⟨4, 0, 0⟩ ⟨0, fun _ => 0, 0, 0⟩ 9 [] [⟨0, 1, 7⟩] [] 1 =
      [(9, addressReadSpec 0xFFFFFFFF), (7, memoryReadSpec BytesPerWord 0)] ∧
    frameIndex ⟨4, 0, 0⟩ (0 + 0) 1 = 3 ∧
    (0 : Int) ≠ 3 := by
  decide

/-- C5 (amended): the CallEvent constructor gives argument i a read fixed
to argument register argumentRegister(index) while index, the argument
words consumed so far, is below the argument-register count, and a
memory-only read at the next outgoing frame index otherwise, those
indexes strictly increasing; the registered reads are the argument reads,
then the address read, then memory-only reads for the operand-stack
values (at the successive outgoing frame indexes within the
stack-argument footprint, at their canonical save slots beyond it), then
memory-only reads at the canonical save slot of every live local; and
CallEvent.compile gives a live result of non-zero size a register site at
returnLow, paired with returnHigh when the result is wider than a
word. -/
theorem callEvent_reads_spec :
    (∀ (c : FrameParams) (arch : CallArch) (aid : Nat)
      (args : List (Nat × Nat)) (sb : List StackEntry)
      (locals : List LocalSlot) (sfp : Nat),
      callEventReads c arch aid args sb locals sfp =
        (argumentReads arch args 0 0 0xFFFFFFFF).1
          ++ [(aid, addressReadSpec (argumentReads arch args 0 0 0xFFFFFFFF).2.2)]
          ++ stackSaveReads c sb (sfp : Int)
              (argumentReads arch args 0 0 0xFFFFFFFF).2.1
          ++ localSaveReads c locals 0) ∧
    (∀ (arch : CallArch) (args : List (Nat × Nat)) (index fi mask i : Nat),
      i < args.length →
      (argumentReads arch args index fi mask).1.getD i (0, memoryReadSpec 0 0) =
        ((args.getD i (0, 0)).1,
          if index + wordsBefore args i < arch.argumentRegisterCount then
            fixedRegisterReadSpec ((args.getD i (0, 0)).2 * BytesPerWord)
              (arch.argumentRegister (index + wordsBefore args i))
          else
            memoryReadSpec ((args.getD i (0, 0)).2 * BytesPerWord)
              ((fi + memWords arch (args.take i) index : Nat) : Int))) ∧
    (∀ (arch : CallArch) (args : List (Nat × Nat)) (index i : Nat),
      (∀ a ∈ args, 1 ≤ a.2) → i + 1 < args.length →
      ¬ (index + wordsBefore args i < arch.argumentRegisterCount) →
      memWords arch (args.take i) index <
        memWords arch (args.take (i + 1)) index ∧
      ¬ (index + wordsBefore args (i + 1) < arch.argumentRegisterCount)) ∧
    (∀ (c : FrameParams) (l : List StackEntry) (footprint : Int) (fi i : Nat),
      i < l.length →
      (stackSaveReads c l footprint fi).getD i (0, memoryReadSpec 0 0) =
        ((l.getD i ⟨0, 0, 0⟩).value,
          if 0 < footprint - (stackWordsBefore l i : Int) then
            memoryReadSpec ((l.getD i ⟨0, 0, 0⟩).sizeInWords * BytesPerWord)
              ((fi + stackWordsBefore l i : Nat) : Int)
          else
            memoryReadSpec ((l.getD i ⟨0, 0, 0⟩).sizeInWords * BytesPerWord)
              (frameIndex c ((l.getD i ⟨0, 0, 0⟩).index + c.localFootprint)
                (l.getD i ⟨0, 0, 0⟩).sizeInWords))) ∧
    (∀ (c : FrameParams) (locals : List LocalSlot) (li vid szB : Nat),
      li < locals.length →
      locals.getD li ⟨none, 0⟩ = ⟨some vid, szB⟩ →
      (vid, memoryReadSpec szB (frameIndex c li (ceiling szB BytesPerWord)))
        ∈ localSaveReads c locals 0) ∧
    (∀ (arch : CallArch) (resultSize : Nat) (live : Bool),
      (resultSize ≠ 0 → live = true →
        callResultSite arch resultSize live =
          some (arch.returnLow,
            if BytesPerWord < resultSize then some arch.returnHigh else none)) ∧
      ((resultSize = 0 ∨ live = false) →
        callResultSite arch resultSize live = none)) := by
  refine ⟨?_, ?_, ?_, ?_, ?_, ?_⟩
  · intro c arch aid args sb locals sfp
    rfl
  · intro arch args index fi mask i h
    exact argumentReads_get arch args index fi mask i h
  · intro arch args index i hsz hi1 hm
    have hi : i < args.length := by omega
    have hsucc := memWords_take_succ arch args index i hi
    have hwb := wordsBefore_succ args i hi
    have hszi : 1 ≤ (args.getD i (0, 0)).2 :=
      hsz _ (getD_mem_of_lt args i (0, 0) hi)
    constructor
    · rw [hsucc, if_neg hm]
      omega
    · rw [hwb]
      omega
  · intro c l footprint fi i h
    exact stackSaveReads_get c l footprint fi i h
  · intro c locals li vid szB h hget
    have hmem := localSaveReads_mem c locals 0 li vid szB h hget
    simpa using hmem
  · intro arch resultSize live
    constructor
    · intro h1 h2
      simp [callResultSite, h1, h2]
    · intro h
      rcases h with h | h <;> simp [callResultSite, h]

/-- Witness for callEvent_reads_spec: the boundary call of the
specification, five one-word arguments against three argument registers,
a live local saved at its canonical slot, a stack value beyond the
footprint saved at its canonical slot, and an eight-byte result in the
register pair. -/
theorem callEvent_reads_spec_witness :
    (argumentReads arch5 args5 0 0 0xFFFFFFFF).1.getD 0 (0, memoryReadSpec 0 0) =
      (1, fixedRegisterReadSpec BytesPerWord 0) ∧
    (argumentReads arch5 args5 0 0 0xFFFFFFFF).1.getD 3 (0, memoryReadSpec 0 0) =
      (4, memoryReadSpec BytesPerWord 0) ∧
    (argumentReads arch5 args5 0 0 0xFFFFFFFF).1.getD 4 (0, memoryReadSpec 0 0) =
      (5, memoryReadSpec BytesPerWord 1) ∧
    (memWords arch5 (args5.take 3) 0 < memWords arch5 (args5.take 4) 0 ∧
      ¬ (0 + wordsBefore args5 4 < arch5.argumentRegisterCount)) ∧
    (stackSaveReads ⟨2, 0, 1⟩ [⟨0, 1, 7⟩] 0 0).getD 0 (0, memoryReadSpec 0 0) =
      (7, memoryReadSpec BytesPerWord (frameIndex ⟨2, 0, 1⟩ (0 + 1) 1)) ∧
    (5, memoryReadSpec 4 (frameIndex ⟨2, 0, 1⟩ 0 (ceiling 4 BytesPerWord)))
      ∈ localSaveReads ⟨2, 0, 1⟩ [⟨some 5, 4⟩] 0 ∧
    callResultSite arch5 8 true = some (0, some 1) := by
  refine ⟨?_, ?_, ?_, ?_, ?_, ?_, ?_⟩
  · rw [callEvent_reads_spec.2.1 arch5 args5 0 0 0xFFFFFFFF 0 (by decide)]
    decide
  · rw [callEvent_reads_spec.2.1 arch5 args5 0 0 0xFFFFFFFF 3 (by decide)]
    decide
  · rw [callEvent_reads_spec.2.1 arch5 args5 0 0 0xFFFFFFFF 4 (by decide)]
    decide
  · exact callEvent_reads_spec.2.2.1 arch5 args5 0 3 (by decide) (by decide)
      (by decide)
  · rw [callEvent_reads_spec.2.2.2.1 ⟨2, 0, 1⟩ [⟨0, 1, 7⟩] 0 0 0 (by decide)]
    decide
  · exact callEvent_reads_spec.2.2.2.2.1 ⟨2, 0, 1⟩ [⟨some 5, 4⟩] 0 5 4
      (by decide) (by decide)
  · rw [(callEvent_reads_spec.2.2.2.2.2 arch5 8 true).1 (by decide) rfl]
    decide

end Avian
